import Mathlib

/-!
Verification of the FTXUI input component (`src/ftxui/component/input.cpp`).

The content buffer is modelled as a list of bytes (`List Nat`), the newline
byte is `10`.  Every definition below is a direct shallow embedding of the
corresponding C++ function; the glyph-navigation helpers, which live in
`ftxui/screen/string_internal` outside the verified sources, are modelled
from the specification and carry a `Modelled from the spec` note.
-/

/-- A UTF-8 continuation byte lies in `0x80 .. 0xBF`. -/
def isContinuationByte (b : Nat) : Bool :=
  decide (128 ≤ b) && decide (b < 192)

/-- Offset `j` starts a code point of `content`: the byte there (if any) is
not a continuation byte.  Offsets at or past the end read the default byte
`0`, which is not a continuation byte, so end-of-buffer is a boundary. -/
def startsCodePoint (content : List Nat) (j : Nat) : Bool :=
  !isContinuationByte (content.getD j 0)

/-- Standard UTF-8 validity of a byte list: a sequence of complete
one- to four-byte encodings, each lead byte followed by the right number of
continuation bytes. -/
def validUtf8 : List Nat → Bool
  | [] => true
  | b :: rest =>
    if b < 128 then validUtf8 rest
    else if b < 192 then false
    else if b < 224 then
      match rest with
      | c1 :: rest1 => isContinuationByte c1 && validUtf8 rest1
      | [] => false
    else if b < 240 then
      match rest with
      | c1 :: c2 :: rest2 =>
        isContinuationByte c1 && isContinuationByte c2 && validUtf8 rest2
      | _ => false
    else if b < 248 then
      match rest with
      | c1 :: c2 :: c3 :: rest3 =>
        isContinuationByte c1 && isContinuationByte c2 &&
          isContinuationByte c3 && validUtf8 rest3
      | _ => false
    else false

/-- Modelled from the spec: the number of decoded code points of a line
(§4.1 decode loop).  In valid UTF-8 every code point contributes exactly one
non-continuation byte, its lead byte. -/
def codePointCount (line : List Nat) : Nat :=
  (line.filter (fun b => !isContinuationByte b)).length

/-- Modelled from the spec: `nextBoundary(buffer, offset)` of §4.1, the
`GlyphNext` helper implemented in the repository's `screen/string_internal`
translation unit, which is not part of the verified sources.  It returns the
smallest offset greater than the given one that starts a code point, or the
buffer length at the end. -/
def GlyphNext (content : List Nat) (i : Nat) : Nat :=
  match (List.range' (i + 1) (content.length - i)).find?
      (fun j => startsCodePoint content j) with
  | some j => j
  | none => content.length

/-- Modelled from the spec: `previousBoundary(buffer, offset)` of §4.1, the
`GlyphPrevious` helper implemented in `screen/string_internal`, outside the
verified sources.  It returns the largest offset below the given one that
starts a code point, or `0` at the start. -/
def GlyphPrevious (content : List Nat) (i : Nat) : Nat :=
  match (List.range i).reverse.find? (fun j => startsCodePoint content j) with
  | some j => j
  | none => 0

/-- Modelled from the spec: `util::clamp(cursor, 0, len(content))` from
`screen/util`, outside the verified sources; §3 of the spec describes it as
re-clamping the cursor into `[0, len(content)]`. -/
def clampCursor (v : Int) (len : Nat) : Int :=
  max 0 (min v (len : Int))

/-- `std::string::erase(pos, count)`. -/
def strErase (s : List Nat) (pos count : Nat) : List Nat :=
  s.take pos ++ s.drop (pos + count)

/-- `std::string::insert(pos, t)`. -/
def strInsert (s : List Nat) (pos : Nat) (t : List Nat) : List Nat :=
  s.take pos ++ t ++ s.drop pos

/-- The mutable state of the input component: the referenced content buffer
and the cursor byte offset. -/
structure InputState where
  content : List Nat
  cursor : Nat
deriving DecidableEq

/-- The `std::getline` loop of `Split` (input.cpp, lines 34-38): lines are
the maximal newline-free runs; a trailing newline produces no extra line
here because `getline` fails at end-of-stream. -/
def getlines : List Nat → List (List Nat)
  | [] => []
  | b :: rest =>
    if b = 10 then
      [] :: getlines rest
    else
      match getlines rest with
      | [] => [[b]]
      | line :: ls => (b :: line) :: ls

/-- `Split` (input.cpp, lines 32-43): the `getline` loop followed by the
trailing-newline fix-up that appends one empty line when the input ends in a
newline byte. -/
def Split (input : List Nat) : List (List Nat) :=
  let output := getlines input
  if input.getLast? = some 10 then output ++ [[]] else output

/-- Models the read `input.back()` on line 39 of `Split`: `none` means the
buffer is empty and the read is out of bounds (undefined behavior). -/
def splitLastByteRead (input : List Nat) : Option Nat :=
  input.getLast?

/-- Joining a line sequence with single newline separators. -/
def joinWithNL : List (List Nat) → List Nat
  | [] => []
  | [l] => l
  | l :: l2 :: ls => l ++ 10 :: joinWithNL (l2 :: ls)

/-- The guard of the placeholder path in `InputBase::Render` (line 110):
`content->empty() && placeholder().length() > 0`. -/
def renderTakesPlaceholderPath (content placeholder : List Nat) : Bool :=
  content.isEmpty && decide (0 < placeholder.length)

/-- The argument `Render` passes to `Split` (line 124) when the placeholder
path is not taken; `none` when the placeholder path returns first. -/
def renderSplitArg (content placeholder : List Nat) : Option (List Nat) :=
  if renderTakesPlaceholderPath content placeholder then none
  else some content

/-- `InputBase::Text` (lines 188-199): plain text unless password mode is
on, in which case the mask string is appended once per byte of the input. -/
def Text (password : Bool) (mask : List Nat) (input : List Nat) : List Nat :=
  if !password then input
  else input.foldl (fun out _ => out ++ mask) []

/-- The cursor-locating loop of `InputBase::Render` (lines 128-138): walk
the lines, and while the remainder exceeds the line length subtract the line
length plus one (the separator) and advance to the next line. -/
def locate (c : Nat) : List (List Nat) → Nat × Nat
  | [] => (0, c)
  | line :: rest =>
    if c ≤ line.length then (0, c)
    else
      let r := locate (c - (line.length + 1)) rest
      (r.1 + 1, r.2)

/-- Sum of `len(line) + 1` over the first `i` lines: the global byte offset
at which line `i` starts. -/
def sumBefore : List (List Nat) → Nat → Nat
  | _, 0 => 0
  | [], _ + 1 => 0
  | l :: ls, j + 1 => l.length + 1 + sumBefore ls j

/-- `InputBase::HandleBackspace` (lines 201-210).  The last component counts
`on_change` invocations: this handler performs none. -/
def HandleBackspace (s : InputState) : InputState × Bool × Nat :=
  if s.cursor = 0 then (s, false, 0)
  else
    let start := GlyphPrevious s.content s.cursor
    (⟨strErase s.content start (s.cursor - start), start⟩, true, 0)

/-- `InputBase::HandleDelete` (lines 234-242).  No `on_change` invocation. -/
def HandleDelete (s : InputState) : InputState × Bool × Nat :=
  if s.cursor = s.content.length then (s, false, 0)
  else
    (⟨strErase s.content s.cursor (GlyphNext s.content s.cursor - s.cursor),
        s.cursor⟩, true, 0)

/-- `InputBase::HandleCharacter` (lines 244-255): reject (but report
handled) at the length cap; otherwise optionally delete the glyph at the
cursor in overwrite mode, splice the sequence in, advance the cursor and
fire `on_change` once. -/
def HandleCharacter (maxLen : Nat) (im : Bool) (seq : List Nat)
    (s : InputState) : InputState × Bool × Nat :=
  if maxLen ≤ s.content.length then (s, true, 0)
  else
    let s1 :=
      if !im && decide (s.cursor < s.content.length)
          && decide (s.content.getD s.cursor 0 ≠ 10) then
        (HandleDelete s).1
      else s
    (⟨strInsert s1.content s1.cursor seq, s1.cursor + seq.length⟩, true, 1)

/-- `InputBase::HandleReturn` (lines 226-232).  Result components: state,
handled, `on_change` count, `on_enter` count. -/
def HandleReturn (maxLen : Nat) (im ml : Bool) (s : InputState) :
    InputState × Bool × Nat × Nat :=
  if ml then
    let r := HandleCharacter maxLen im [10] s
    (r.1, true, r.2.2, 1)
  else (s, true, 0, 1)

/-- `InputBase::HandleArrowUp` (lines 212-217). -/
def HandleArrowUp (s : InputState) : InputState × Bool × Nat :=
  if s.cursor = s.content.length then (s, false, 0) else (s, true, 0)

/-- `InputBase::HandleArrowDown` (lines 219-224). -/
def HandleArrowDown (s : InputState) : InputState × Bool × Nat :=
  if s.cursor = s.content.length then (s, false, 0) else (s, true, 0)

/-- The events routed by `InputBase::OnEvent`. -/
inductive InputEvent where
  | ret
  | character (seq : List Nat)
  | backspace
  | arrowUp
  | arrowDown
  | other
deriving DecidableEq

/-- `InputBase::OnEvent` (lines 257-276): clamp the cursor, then dispatch in
priority order.  Result: state, handled, `on_change` count, `on_enter`
count. -/
def OnEvent (maxLen : Nat) (im ml : Bool) (content : List Nat) (raw : Int)
    (e : InputEvent) : InputState × Bool × Nat × Nat :=
  let c := (clampCursor raw content.length).toNat
  let s : InputState := ⟨content, c⟩
  match e with
  | .ret => HandleReturn maxLen im ml s
  | .character seq =>
    let r := HandleCharacter maxLen im seq s
    (r.1, r.2.1, r.2.2, 0)
  | .backspace =>
    let r := HandleBackspace s
    (r.1, r.2.1, r.2.2, 0)
  | .arrowUp =>
    let r := HandleArrowUp s
    (r.1, r.2.1, r.2.2, 0)
  | .arrowDown =>
    let r := HandleArrowDown s
    (r.1, r.2.1, r.2.2, 0)
  | .other => (s, false, 0, 0)

/-- A cursor that is inside the buffer and on a code-point boundary. -/
def cursorOk (s : InputState) : Prop :=
  s.cursor ≤ s.content.length ∧ startsCodePoint s.content s.cursor = true

/-! ### Glyph navigator facts -/

theorem GlyphNext_le (content : List Nat) (i : Nat) :
    GlyphNext content i ≤ content.length := by
  unfold GlyphNext
  cases hf : (List.range' (i + 1) (content.length - i)).find?
      (fun j => startsCodePoint content j) with
  | none => simp
  | some j =>
    have hm := List.mem_range'_1.mp (List.mem_of_find?_eq_some hf)
    simp only
    omega

theorem GlyphNext_gt (content : List Nat) (i : Nat) (h : i < content.length) :
    i < GlyphNext content i := by
  unfold GlyphNext
  cases hf : (List.range' (i + 1) (content.length - i)).find?
      (fun j => startsCodePoint content j) with
  | none => simpa using h
  | some j =>
    have hm := List.mem_range'_1.mp (List.mem_of_find?_eq_some hf)
    simp only
    omega

theorem startsCodePoint_len (content : List Nat) :
    startsCodePoint content content.length = true := by
  unfold startsCodePoint
  rw [List.getD_eq_default content 0 le_rfl]
  decide

theorem GlyphNext_starts (content : List Nat) (i : Nat) :
    startsCodePoint content (GlyphNext content i) = true := by
  unfold GlyphNext
  cases hf : (List.range' (i + 1) (content.length - i)).find?
      (fun j => startsCodePoint content j) with
  | none => simpa using startsCodePoint_len content
  | some j => simpa using List.find?_some hf

theorem GlyphPrevious_le (content : List Nat) (i : Nat) :
    GlyphPrevious content i ≤ i := by
  unfold GlyphPrevious
  cases hf : (List.range i).reverse.find? (fun j => startsCodePoint content j) with
  | none => simp
  | some j =>
    have hm := List.mem_range.mp (List.mem_reverse.mp (List.mem_of_find?_eq_some hf))
    simp only
    omega

theorem GlyphPrevious_lt (content : List Nat) (i : Nat) (h : 0 < i) :
    GlyphPrevious content i < i := by
  unfold GlyphPrevious
  cases hf : (List.range i).reverse.find? (fun j => startsCodePoint content j) with
  | none => simpa using h
  | some j =>
    have hm := List.mem_range.mp (List.mem_reverse.mp (List.mem_of_find?_eq_some hf))
    simpa using hm

/-! ### Boundary preservation under erase and insert -/

theorem strErase_boundary_eq (s : List Nat) (a b : Nat) (hab : a ≤ b) :
    strErase s a (b - a) = s.take a ++ s.drop b := by
  unfold strErase
  congr 2
  omega

theorem startsCodePoint_take_drop (content : List Nat) (a b : Nat)
    (hab : a ≤ b) (hbl : b ≤ content.length)
    (h : startsCodePoint content b = true) :
    startsCodePoint (content.take a ++ content.drop b) a = true := by
  unfold startsCodePoint at h ⊢
  have hta : (content.take a).length = a := by
    rw [List.length_take]
    omega
  have hkey : (content.take a ++ content.drop b).getD a 0 = content.getD b 0 := by
    rw [List.getD_eq_getElem?_getD, List.getD_eq_getElem?_getD,
      List.getElem?_append_right (by omega), hta, Nat.sub_self,
      List.getElem?_drop, Nat.add_zero]
  rw [hkey]
  exact h

theorem startsCodePoint_strInsert (content seq : List Nat) (p : Nat)
    (hp : p ≤ content.length) (h : startsCodePoint content p = true) :
    startsCodePoint (strInsert content p seq) (p + seq.length) = true := by
  unfold startsCodePoint at h ⊢
  unfold strInsert
  have hta : (content.take p ++ seq).length = p + seq.length := by
    rw [List.length_append, List.length_take]
    omega
  have hkey : ((content.take p ++ seq) ++ content.drop p).getD (p + seq.length) 0
      = content.getD p 0 := by
    rw [List.getD_eq_getElem?_getD, List.getD_eq_getElem?_getD,
      List.getElem?_append_right (by omega), hta, Nat.sub_self,
      List.getElem?_drop, Nat.add_zero]
  rw [hkey]
  exact h

theorem strInsert_length (s t : List Nat) (p : Nat) (hp : p ≤ s.length) :
    (strInsert s p t).length = s.length + t.length := by
  unfold strInsert
  simp [List.length_take, List.length_drop]
  omega

theorem take_drop_length (s : List Nat) (a b : Nat) (hab : a ≤ b)
    (hbl : b ≤ s.length) :
    (s.take a ++ s.drop b).length = a + (s.length - b) := by
  simp [List.length_take, List.length_drop]
  omega

/-! ### The Split round trip -/

theorem getlines_ne_nil (b : Nat) (rest : List Nat) :
    getlines (b :: rest) ≠ [] := by
  unfold getlines
  by_cases hb : b = 10
  · simp [hb]
  · simp only [hb, if_false]
    cases getlines rest <;> simp

theorem joinWithNL_cons (l : List Nat) (L : List (List Nat)) (hL : L ≠ []) :
    joinWithNL (l :: L) = l ++ 10 :: joinWithNL L := by
  cases L with
  | nil => exact absurd rfl hL
  | cons l2 ls => rfl

theorem joinWithNL_cons_head (b : Nat) (line : List Nat)
    (T : List (List Nat)) :
    joinWithNL ((b :: line) :: T) = b :: joinWithNL (line :: T) := by
  cases T with
  | nil => rfl
  | cons t ts => rfl

theorem split_join (input : List Nat) (h : input ≠ []) :
    joinWithNL (Split input) = input := by
  induction input with
  | nil => exact absurd rfl h
  | cons b rest ih =>
    cases rest with
    | nil =>
      by_cases hb : b = 10
      · subst hb; rfl
      · unfold Split getlines
        simp only [List.getLast?_singleton, Option.some.injEq, hb, if_false]
        rfl
    | cons r rs =>
      have hrest : (r :: rs : List Nat) ≠ [] := by simp
      have ihr := ih hrest
      have hlast : (b :: r :: rs).getLast? = (r :: rs).getLast? :=
        List.getLast?_cons_cons
      by_cases hb : b = 10
      · subst hb
        have hglines : getlines (10 :: r :: rs) = [] :: getlines (r :: rs) := rfl
        unfold Split
        simp only [hglines, hlast]
        unfold Split at ihr
        by_cases hl : (r :: rs).getLast? = some 10
        · simp only [hl, if_true] at ihr ⊢
          rw [List.cons_append,
            joinWithNL_cons [] (getlines (r :: rs) ++ [[]])
              (by cases hg : getlines (r :: rs) <;> simp), ihr]
          rfl
        · simp only [hl, if_false] at ihr ⊢
          rw [joinWithNL_cons [] (getlines (r :: rs)) (getlines_ne_nil r rs), ihr]
          rfl
      · cases hgl : getlines (r :: rs) with
        | nil => exact absurd hgl (getlines_ne_nil r rs)
        | cons line ls =>
          have hglines : getlines (b :: r :: rs) = (b :: line) :: ls := by
            conv_lhs => unfold getlines
            simp only [hb, if_false, hgl]
          unfold Split
          simp only [hglines, hlast]
          unfold Split at ihr
          simp only [hgl] at ihr
          by_cases hl : (r :: rs).getLast? = some 10
          · simp only [hl, if_true] at ihr ⊢
            rw [List.cons_append, joinWithNL_cons_head, ← List.cons_append, ihr]
          · simp only [hl, if_false] at ihr ⊢
            rw [joinWithNL_cons_head, ihr]

theorem Split_ne_nil (input : List Nat) (h : input ≠ []) :
    Split input ≠ [] := by
  unfold Split
  cases input with
  | nil => exact absurd rfl h
  | cons b rest =>
    by_cases hl : (b :: rest).getLast? = some 10
    · simp only [hl, if_true]
      cases hg : getlines (b :: rest) <;> simp
    · simp only [hl, if_false]
      exact getlines_ne_nil b rest

/-! ### Cursor locator characterization -/

theorem joinWithNL_cons_length (l : List Nat) (L : List (List Nat))
    (hL : L ≠ []) :
    (joinWithNL (l :: L)).length = l.length + 1 + (joinWithNL L).length := by
  rw [joinWithNL_cons l L hL]
  simp
  omega

theorem locate_characterization (lines : List (List Nat)) (c : Nat)
    (hne : lines ≠ []) (hc : c ≤ (joinWithNL lines).length) :
    (locate c lines).1 < lines.length ∧
    c = sumBefore lines (locate c lines).1 + (locate c lines).2 ∧
    (locate c lines).2 ≤ (lines.getD (locate c lines).1 []).length ∧
    (∀ j off, j < lines.length → c = sumBefore lines j + off →
      off ≤ (lines.getD j []).length → (locate c lines).1 ≤ j) ∧
    (∀ j, j < lines.length → c = sumBefore lines j + (lines.getD j []).length →
      locate c lines = (j, (lines.getD j []).length)) := by
  induction lines generalizing c with
  | nil => exact absurd rfl hne
  | cons l ls ih =>
    cases ls with
    | nil =>
      have hcl : c ≤ l.length := by simpa [joinWithNL] using hc
      have hloc : locate c [l] = (0, c) := by
        unfold locate
        simp [hcl]
      refine ⟨by simp [hloc], by simp [hloc, sumBefore], by simpa [hloc] using hcl,
        ?_, ?_⟩
      · intro j off _ _ _
        simp [hloc]
      · intro j hj hoff
        cases j with
        | zero =>
          simp only [sumBefore, List.getD_cons_zero, Nat.zero_add] at hoff
          rw [hloc]
          simp only [List.getD_cons_zero]
          rw [hoff]
        | succ j2 =>
          exfalso
          simp at hj
    | cons l2 ls2 =>
      have hlen : (joinWithNL (l :: l2 :: ls2)).length =
          l.length + 1 + (joinWithNL (l2 :: ls2)).length :=
        joinWithNL_cons_length l (l2 :: ls2) (by simp)
      by_cases hcl : c ≤ l.length
      · have hloc : locate c (l :: l2 :: ls2) = (0, c) := by
          unfold locate
          simp [hcl]
        refine ⟨by simp [hloc], by simp [hloc, sumBefore],
          by simpa [hloc] using hcl, ?_, ?_⟩
        · intro j off _ _ _
          simp [hloc]
        · intro j hj hoff
          cases j with
          | zero =>
            simp only [sumBefore, List.getD_cons_zero, Nat.zero_add] at hoff
            rw [hloc]
            simp only [List.getD_cons_zero]
            rw [hoff]
          | succ j2 =>
            exfalso
            simp only [sumBefore] at hoff
            omega
      · have hstep : l.length < c := by omega
        have hloc : locate c (l :: l2 :: ls2) =
            ((locate (c - (l.length + 1)) (l2 :: ls2)).1 + 1,
             (locate (c - (l.length + 1)) (l2 :: ls2)).2) := by
          conv_lhs => unfold locate
          simp [hcl]
        have hc2 : c - (l.length + 1) ≤ (joinWithNL (l2 :: ls2)).length := by
          omega
        obtain ⟨ih1, ih2, ih3, ih4, ih5⟩ :=
          ih (c - (l.length + 1)) (by simp) hc2
        refine ⟨?_, ?_, ?_, ?_, ?_⟩
        · rw [hloc]
          simpa using ih1
        · rw [hloc]
          simp only [sumBefore]
          omega
        · rw [hloc]
          simpa using ih3
        · intro j off hj hsum hoffle
          cases j with
          | zero =>
            exfalso
            simp only [sumBefore, List.getD_cons_zero, Nat.zero_add] at hsum hoffle
            omega
          | succ j2 =>
            simp only [sumBefore] at hsum
            simp only [List.getD_cons_succ] at hoffle
            have := ih4 j2 off (by simpa using hj) (by omega) hoffle
            rw [hloc]
            simpa using this
        · intro j hj hsum
          cases j with
          | zero =>
            exfalso
            simp only [sumBefore, List.getD_cons_zero, Nat.zero_add] at hsum
            omega
          | succ j2 =>
            simp only [sumBefore, List.getD_cons_succ] at hsum
            have h5 := ih5 j2 (by simpa using hj) (by omega)
            rw [hloc, h5]
            simp [List.getD_cons_succ]

/-! ### Cursor validity preservation by the edit engine -/

theorem HandleDelete_state (content : List Nat) (c : Nat)
    (hlt : c < content.length) :
    (HandleDelete ⟨content, c⟩).1.content =
      content.take c ++ content.drop (GlyphNext content c) ∧
    (HandleDelete ⟨content, c⟩).1.cursor = c ∧
    c ≤ (HandleDelete ⟨content, c⟩).1.content.length ∧
    startsCodePoint (HandleDelete ⟨content, c⟩).1.content c = true := by
  have hne : ¬(c = content.length) := by omega
  have hgt := GlyphNext_gt content c hlt
  have hle := GlyphNext_le content c
  have hbd := GlyphNext_starts content c
  have hq : HandleDelete ⟨content, c⟩ =
      (⟨strErase content c (GlyphNext content c - c), c⟩, true, 0) := by
    unfold HandleDelete
    dsimp only
    rw [if_neg hne]
  rw [hq]
  dsimp only
  rw [strErase_boundary_eq content c (GlyphNext content c) (by omega)]
  refine ⟨rfl, rfl, ?_, ?_⟩
  · rw [take_drop_length content c (GlyphNext content c) (by omega) hle]
    omega
  · exact startsCodePoint_take_drop content c (GlyphNext content c)
      (by omega) hle hbd

theorem HandleBackspace_cursorOk (content : List Nat) (c : Nat)
    (hc : c ≤ content.length) (hb : startsCodePoint content c = true) :
    cursorOk (HandleBackspace ⟨content, c⟩).1 := by
  unfold HandleBackspace
  dsimp only
  by_cases h0 : c = 0
  · rw [if_pos h0]
    exact ⟨hc, hb⟩
  · rw [if_neg h0]
    have hgle : GlyphPrevious content c ≤ c := GlyphPrevious_le content c
    dsimp only [cursorOk]
    rw [strErase_boundary_eq content (GlyphPrevious content c) c hgle]
    constructor
    · rw [take_drop_length content (GlyphPrevious content c) c hgle hc]
      omega
    · exact startsCodePoint_take_drop content (GlyphPrevious content c) c
        hgle hc hb

theorem HandleDelete_cursorOk (content : List Nat) (c : Nat)
    (hc : c ≤ content.length) (hb : startsCodePoint content c = true) :
    cursorOk (HandleDelete ⟨content, c⟩).1 := by
  by_cases hlen : c = content.length
  · unfold HandleDelete
    dsimp only
    rw [if_pos hlen]
    exact ⟨hc, hb⟩
  · obtain ⟨_, hcur, hl, hbd⟩ := HandleDelete_state content c (by omega)
    exact ⟨by rw [hcur]; exact hl, by rw [hcur]; exact hbd⟩

theorem HandleCharacter_cursorOk (maxLen : Nat) (im : Bool)
    (content seq : List Nat) (c : Nat)
    (hc : c ≤ content.length) (hb : startsCodePoint content c = true) :
    cursorOk (HandleCharacter maxLen im seq ⟨content, c⟩).1 := by
  unfold HandleCharacter
  dsimp only
  by_cases hmax : maxLen ≤ content.length
  · rw [if_pos hmax]
    exact ⟨hc, hb⟩
  · rw [if_neg hmax]
    by_cases hdel : (!im && decide (c < content.length)
        && decide (content.getD c 0 ≠ 10)) = true
    · rw [if_pos hdel]
      have hlt : c < content.length := by
        simp only [Bool.and_eq_true, decide_eq_true_eq] at hdel
        exact hdel.1.2
      obtain ⟨_, hcur, hlen1, hbd1⟩ := HandleDelete_state content c hlt
      dsimp only [cursorOk]
      rw [hcur]
      constructor
      · rw [strInsert_length _ seq c hlen1]
        omega
      · exact startsCodePoint_strInsert _ seq c hlen1 hbd1
    · rw [if_neg hdel]
      dsimp only [cursorOk]
      constructor
      · rw [strInsert_length _ seq c hc]
        omega
      · exact startsCodePoint_strInsert _ seq c hc hb

theorem HandleReturn_cursorOk (maxLen : Nat) (im : Bool)
    (content : List Nat) (c : Nat)
    (hc : c ≤ content.length) (hb : startsCodePoint content c = true) :
    cursorOk (HandleReturn maxLen im true ⟨content, c⟩).1 := by
  unfold HandleReturn
  rw [if_pos rfl]
  exact HandleCharacter_cursorOk maxLen im content [10] c hc hb

theorem clampCursor_bounds (raw : Int) (len : Nat) :
    0 ≤ clampCursor raw len ∧ clampCursor raw len ≤ (len : Int) := by
  unfold clampCursor
  refine ⟨le_max_left 0 _, max_le ?_ (min_le_right _ _)⟩
  exact Int.ofNat_nonneg len

/-! ### Password masking -/

theorem foldl_mask (mask l acc : List Nat) :
    l.foldl (fun out _ => out ++ mask) acc =
      acc ++ (List.replicate l.length mask).flatten := by
  induction l generalizing acc with
  | nil => simp
  | cons b rest ih =>
    simp only [List.foldl_cons, List.length_cons, List.replicate_succ,
      List.flatten_cons, ih]
    rw [List.append_assoc]

/-- C1 (counterexample): the claim fails on the code.  For the valid
two-byte UTF-8 line `é` = `[195, 169]` (one code point) and mask `*` =
`[42]`, password rendering yields two mask copies, one per byte, so the
rendered text is not the mask repeated once per decoded code point. -/
theorem password_mask_per_codepoint_cex :
    validUtf8 [195, 169] = true ∧
    codePointCount [195, 169] = 1 ∧
    Text true [42] [195, 169] = [42, 42] ∧
    Text true [42] [195, 169] ≠
      (List.replicate (codePointCount [195, 169]) [42]).flatten := by
  refine ⟨by decide, by decide, by decide, by decide⟩

/-- C1 (amended): in password mode each rendered line is the mask string
repeated once per byte of the line, so the display length tracks the byte
count; it agrees with the decoded code-point count exactly when every byte
of the line is single-byte ASCII. -/
theorem password_mask_per_byte (mask line : List Nat) :
    Text true mask line = (List.replicate line.length mask).flatten ∧
    (line.all (fun b => decide (b < 128)) = true →
      codePointCount line = line.length) := by
  constructor
  · unfold Text
    simp only [Bool.not_true, Bool.false_eq_true, if_false]
    simpa using foldl_mask mask line []
  · intro hascii
    have hfil : line.filter (fun b => !isContinuationByte b) = line := by
      rw [List.filter_eq_self]
      intro a ha
      have h128 : a < 128 := by
        have := List.all_eq_true.mp hascii a ha
        simpa using this
      simp only [isContinuationByte, Bool.not_eq_true']
      simp only [Bool.and_eq_false_iff, decide_eq_false_iff_not]
      omega
    rw [codePointCount, hfil]

/-- Witness for the amended C1 at the ASCII line `hi` with mask `*`. -/
theorem password_mask_per_byte_witness :
    Text true [42] [104, 105] = (List.replicate 2 [42]).flatten ∧
    codePointCount [104, 105] = 2 := by
  have h := password_mask_per_byte [42] [104, 105]
  exact ⟨h.1, h.2 (by decide)⟩

/-- C2: the claim fails on the code.  With empty content and an empty
placeholder the guard on line 110 (`content->empty() &&
placeholder().length() > 0`) is false, so `Render` does not take the
placeholder path and passes the empty buffer to `Split`, whose
`input.back()` read (line 39) is then out of bounds. -/
theorem render_empty_reaches_split_empty :
    renderTakesPlaceholderPath [] [] = false ∧
    renderSplitArg [] [] = some [] ∧
    splitLastByteRead [] = none :=
  ⟨rfl, rfl, rfl⟩

/-- C3 (counterexample): the claim fails on the code.  Backspace at cursor 1
on content `a`, and delete at cursor 0 on the same content, are accepted
mutations (handled, content changed) that invoke `on_change` zero times. -/
theorem onchange_missing_on_delete_cex :
    (HandleBackspace ⟨[97], 1⟩).2.1 = true ∧
    (HandleBackspace ⟨[97], 1⟩).1.content = [] ∧
    (HandleBackspace ⟨[97], 1⟩).2.2 = 0 ∧
    (HandleDelete ⟨[97], 0⟩).2.1 = true ∧
    (HandleDelete ⟨[97], 0⟩).1.content = [] ∧
    (HandleDelete ⟨[97], 0⟩).2.2 = 0 := by
  refine ⟨by decide, by decide, by decide, by decide, by decide, by decide⟩

/-- C3 (amended): `on_change` is invoked exactly once by every accepted
`HandleCharacter` (and hence by Return's newline insertion when multiline is
on and there is room), but `HandleBackspace` and `HandleDelete` never invoke
it, even when they mutate the buffer. -/
theorem onchange_fires_only_on_insert (content seq : List Nat)
    (c maxLen : Nat) (im : Bool) (s : InputState)
    (hroom : content.length < maxLen) :
    (HandleCharacter maxLen im seq ⟨content, c⟩).2.2 = 1 ∧
    (HandleBackspace s).2.2 = 0 ∧
    (HandleDelete s).2.2 = 0 ∧
    (HandleReturn maxLen im true ⟨content, c⟩).2.2.1 = 1 := by
  refine ⟨?_, ?_, ?_, ?_⟩
  · unfold HandleCharacter
    dsimp only
    rw [if_neg (by omega)]
  · unfold HandleBackspace
    by_cases h : s.cursor = 0
    · rw [if_pos h]
    · rw [if_neg h]
  · unfold HandleDelete
    by_cases h : s.cursor = s.content.length
    · rw [if_pos h]
    · rw [if_neg h]
  · unfold HandleReturn
    rw [if_pos rfl]
    show (HandleCharacter maxLen im [10] ⟨content, c⟩).2.2 = 1
    unfold HandleCharacter
    dsimp only
    rw [if_neg (by omega)]

/-- Witness for the amended C3: insert fires `on_change` once, backspace
mutates without firing it. -/
theorem onchange_fires_only_on_insert_witness :
    (1 : Nat) < 9 ∧
    (HandleCharacter 9 true [98] ⟨[97], 0⟩).2.2 = 1 ∧
    (HandleBackspace ⟨[97], 1⟩).2.2 = 0 ∧
    (HandleDelete ⟨[97], 0⟩).2.2 = 0 ∧
    (HandleReturn 9 true true ⟨[97], 0⟩).2.2.1 = 1 := by
  have h := onchange_fires_only_on_insert [97] [98] 0 9 true ⟨[97], 1⟩
    (by decide)
  exact ⟨by decide, h.1, h.2.1, by decide, h.2.2.2⟩

/-- C4: joining the lines produced by `Split` with a single newline byte
reproduces every non-empty input exactly, including inputs ending in a
newline byte, for which `Split` appends one extra empty line. -/
theorem split_join_roundtrip (input : List Nat) (h : input ≠ []) :
    joinWithNL (Split input) = input :=
  split_join input h

/-- Witness for C4 at Scenario E: `Split "line1\n"` is exactly the two
lines `"line1"` and `""`, and joining them restores the input. -/
theorem split_join_roundtrip_witness :
    ([108, 105, 110, 101, 49, 10] : List Nat) ≠ [] ∧
    Split [108, 105, 110, 101, 49, 10] = [[108, 105, 110, 101, 49], []] ∧
    joinWithNL (Split [108, 105, 110, 101, 49, 10]) =
      [108, 105, 110, 101, 49, 10] :=
  ⟨by decide, by decide,
    split_join_roundtrip [108, 105, 110, 101, 49, 10] (by decide)⟩

/-- C5: the cursor is re-clamped into `[0, len(content)]` (the clamp at the
head of `OnEvent` and of `Render`), and every edit-engine operation applied
to a valid state (valid UTF-8 content, in-range cursor on a code-point
boundary) leaves the cursor in range and on a code-point boundary — never
strictly inside a multi-byte encoding. -/
theorem cursor_invariant_preserved (content seq : List Nat) (raw : Int)
    (c maxLen : Nat) (im : Bool)
    (hval : validUtf8 content = true) (hseq : validUtf8 seq = true)
    (hc : c ≤ content.length) (hb : startsCodePoint content c = true) :
    (0 ≤ clampCursor raw content.length ∧
      clampCursor raw content.length ≤ (content.length : Int)) ∧
    cursorOk (HandleBackspace ⟨content, c⟩).1 ∧
    cursorOk (HandleDelete ⟨content, c⟩).1 ∧
    cursorOk (HandleCharacter maxLen im seq ⟨content, c⟩).1 ∧
    cursorOk (HandleReturn maxLen im true ⟨content, c⟩).1 :=
  ⟨clampCursor_bounds raw content.length,
    HandleBackspace_cursorOk content c hc hb,
    HandleDelete_cursorOk content c hc hb,
    HandleCharacter_cursorOk maxLen im content seq c hc hb,
    HandleReturn_cursorOk maxLen im content c hc hb⟩

/-- Witness for C5 on the valid UTF-8 content `aé` with the cursor at its
end and a negative raw cursor for the clamp. -/
theorem cursor_invariant_preserved_witness :
    validUtf8 [97, 195, 169] = true ∧
    startsCodePoint [97, 195, 169] 3 = true ∧
    ((0 ≤ clampCursor (-7) ([97, 195, 169] : List Nat).length ∧
        clampCursor (-7) ([97, 195, 169] : List Nat).length ≤
          (([97, 195, 169] : List Nat).length : Int)) ∧
      cursorOk (HandleBackspace ⟨[97, 195, 169], 3⟩).1 ∧
      cursorOk (HandleDelete ⟨[97, 195, 169], 3⟩).1 ∧
      cursorOk (HandleCharacter 9 false [99] ⟨[97, 195, 169], 3⟩).1 ∧
      cursorOk (HandleReturn 9 false true ⟨[97, 195, 169], 3⟩).1) :=
  ⟨by decide, by decide,
    cursor_invariant_preserved [97, 195, 169] [99] (-7) 3 9 false
      (by decide) (by decide) (by decide) (by decide)⟩

/-- C6: in overwrite mode (insert off), with room available, the cursor
strictly before end-of-content and the byte at the cursor not a newline,
`HandleCharacter` first deletes the glyph at the cursor (`HandleDelete`,
which reports a successful deletion), then splices the sequence in at the
cursor and advances the cursor by its length, firing `on_change` once. -/
theorem overwrite_replaces_then_inserts (content seq : List Nat)
    (c maxLen : Nat) (hroom : content.length < maxLen)
    (hcur : c < content.length) (hnl : content.getD c 0 ≠ 10) :
    (HandleDelete ⟨content, c⟩).2.1 = true ∧
    HandleCharacter maxLen false seq ⟨content, c⟩ =
      (⟨strInsert (HandleDelete ⟨content, c⟩).1.content c seq,
        c + seq.length⟩, true, 1) := by
  constructor
  · unfold HandleDelete
    dsimp only
    rw [if_neg (by omega)]
  · unfold HandleCharacter
    dsimp only
    rw [if_neg (by omega)]
    have hcond : (!false && decide (c < content.length)
        && decide (content.getD c 0 ≠ 10)) = true := by
      simp only [Bool.not_false, Bool.true_and, Bool.and_eq_true,
        decide_eq_true_eq]
      exact ⟨hcur, hnl⟩
    rw [if_pos hcond]
    have hcu : (HandleDelete ⟨content, c⟩).1.cursor = c :=
      (HandleDelete_state content c hcur).2.1
    rw [hcu]

/-- Witness for C6 at Scenario B: content `ab`, cursor 1, overwrite mode,
typing `Z` yields content `aZ` and cursor 2. -/
theorem overwrite_replaces_then_inserts_witness :
    (2 : Nat) < 1000 ∧
    HandleCharacter 1000 false [90] ⟨[97, 98], 1⟩ =
      (⟨[97, 90], 2⟩, true, 1) := by
  have h := overwrite_replaces_then_inserts [97, 98] [90] 1 1000
    (by decide) (by decide) (by decide)
  refine ⟨by decide, ?_⟩
  rw [h.2]
  decide

/-- C7: once the content length has reached the configured maximum, every
`HandleCharacter` call reports handled without touching content, cursor or
callbacks (zero `on_change` invocations). -/
theorem insert_rejected_at_max (content seq : List Nat) (c maxLen : Nat)
    (im : Bool) (h : maxLen ≤ content.length) :
    HandleCharacter maxLen im seq ⟨content, c⟩ = (⟨content, c⟩, true, 0) := by
  unfold HandleCharacter
  dsimp only
  rw [if_pos h]

/-- Witness for C7: a full three-byte buffer swallows the keystroke. -/
theorem insert_rejected_at_max_witness :
    (3 : Nat) ≤ ([97, 98, 99] : List Nat).length ∧
    HandleCharacter 3 true [100] ⟨[97, 98, 99], 1⟩ =
      (⟨[97, 98, 99], 1⟩, true, 0) :=
  ⟨by decide, insert_rejected_at_max [97, 98, 99] [100] 1 3 true (by decide)⟩

/-- C8: `HandleReturn` always reports handled and fires `on_enter` exactly
once; with multiline on it routes through `HandleCharacter` with a single
newline byte (the same max-length and `on_change` path, so a full buffer
leaves the content untouched), and with multiline off the state is
unchanged and no newline is inserted. -/
theorem return_semantics (maxLen : Nat) (im ml : Bool) (s : InputState) :
    (HandleReturn maxLen im ml s).2.2.2 = 1 ∧
    (HandleReturn maxLen im ml s).2.1 = true ∧
    (ml = false → HandleReturn maxLen im ml s = (s, true, 0, 1)) ∧
    (ml = true →
      (HandleReturn maxLen im ml s).1 = (HandleCharacter maxLen im [10] s).1 ∧
      (HandleReturn maxLen im ml s).2.2.1 =
        (HandleCharacter maxLen im [10] s).2.2) ∧
    (ml = true → maxLen ≤ s.content.length →
      (HandleReturn maxLen im ml s).1 = s) := by
  cases ml with
  | false =>
    exact ⟨rfl, rfl, fun _ => rfl, fun h => absurd h (by simp),
      fun h => absurd h (by simp)⟩
  | true =>
    refine ⟨rfl, rfl, fun h => absurd h (by simp), fun _ => ⟨rfl, rfl⟩,
      fun _ hlen => ?_⟩
    show (HandleCharacter maxLen im [10] s).1 = s
    unfold HandleCharacter
    rw [if_pos hlen]

/-- Witness for C8: with multiline on a newline is inserted at the cursor;
with multiline off the state is unchanged (Scenario D). -/
theorem return_semantics_witness :
    (HandleReturn 9 true true ⟨[97], 1⟩).2.2.2 = 1 ∧
    (HandleReturn 9 true true ⟨[97], 1⟩).2.1 = true ∧
    (HandleReturn 9 true true ⟨[97], 1⟩).1 = ⟨[97, 10], 2⟩ ∧
    (HandleReturn 9 true false ⟨[97], 1⟩).1 = ⟨[97], 1⟩ := by
  have h := return_semantics 9 true true ⟨[97], 1⟩
  have h2 := return_semantics 9 true false ⟨[97], 1⟩
  refine ⟨h.1, h.2.1, ?_, ?_⟩
  · rw [(h.2.2.2.1 rfl).1]
    decide
  · rw [h2.2.2.1 rfl]

/-- C9: backspace at cursor 0 and delete at end-of-content are unchanged,
not-handled no-ops; otherwise backspace erases exactly the byte range from
the previous boundary to the cursor and moves the cursor to its start, and
delete erases exactly the byte range from the cursor to the next boundary
leaving the cursor unchanged, both reporting handled. -/
theorem delete_ops_boundary_semantics (content : List Nat) (c : Nat)
    (hc : c ≤ content.length) :
    HandleBackspace ⟨content, 0⟩ = (⟨content, 0⟩, false, 0) ∧
    HandleDelete ⟨content, content.length⟩ =
      (⟨content, content.length⟩, false, 0) ∧
    (0 < c →
      HandleBackspace ⟨content, c⟩ =
        (⟨content.take (GlyphPrevious content c) ++ content.drop c,
          GlyphPrevious content c⟩, true, 0) ∧
      GlyphPrevious content c < c ∧
      (content.take (GlyphPrevious content c) ++ content.drop c).length =
        content.length - (c - GlyphPrevious content c)) ∧
    (c < content.length →
      HandleDelete ⟨content, c⟩ =
        (⟨content.take c ++ content.drop (GlyphNext content c), c⟩, true, 0) ∧
      c < GlyphNext content c ∧ GlyphNext content c ≤ content.length ∧
      (content.take c ++ content.drop (GlyphNext content c)).length =
        content.length - (GlyphNext content c - c)) := by
  refine ⟨?_, ?_, ?_, ?_⟩
  · unfold HandleBackspace
    dsimp only
    rw [if_pos rfl]
  · unfold HandleDelete
    dsimp only
    rw [if_pos rfl]
  · intro h0
    have hgle := GlyphPrevious_le content c
    have hglt := GlyphPrevious_lt content c h0
    refine ⟨?_, hglt, ?_⟩
    · unfold HandleBackspace
      dsimp only
      rw [if_neg (by omega),
        strErase_boundary_eq content (GlyphPrevious content c) c hgle]
    · rw [take_drop_length content (GlyphPrevious content c) c hgle hc]
      omega
  · intro hlt
    have h1 := GlyphNext_gt content c hlt
    have h2 := GlyphNext_le content c
    refine ⟨?_, h1, h2, ?_⟩
    · unfold HandleDelete
      dsimp only
      rw [if_neg (by omega),
        strErase_boundary_eq content c (GlyphNext content c) (by omega)]
    · rw [take_drop_length content c (GlyphNext content c) (by omega) h2]
      omega

/-- Witness for C9 on `aé`: backspace at the end removes the whole two-byte
glyph, backspace at 0 is a not-handled no-op, and delete at 1 removes the
two-byte glyph without moving the cursor. -/
theorem delete_ops_boundary_semantics_witness :
    (0 : Nat) < 3 ∧
    HandleBackspace ⟨[97, 195, 169], 3⟩ = (⟨[97], 1⟩, true, 0) ∧
    HandleBackspace ⟨[97, 195, 169], 0⟩ = (⟨[97, 195, 169], 0⟩, false, 0) ∧
    HandleDelete ⟨[97, 195, 169], 1⟩ = (⟨[97], 1⟩, true, 0) := by
  have h := delete_ops_boundary_semantics [97, 195, 169] 3 (by decide)
  have h2 := delete_ops_boundary_semantics [97, 195, 169] 1 (by decide)
  refine ⟨by decide, ?_, h.1, ?_⟩
  · rw [(h.2.2.1 (by decide)).1]
    decide
  · rw [(h2.2.2.2 (by decide)).1]
    decide

/-- C10: for every clamped cursor offset into non-empty content, the
locating loop stops at the first line whose length the remainder fits
within, the remainder decomposes the offset against the `len(line) + 1`
walk, and when the remainder equals exactly a line's length the cursor is
assigned to the end of that line, not offset 0 of the next. -/
theorem cursor_locator_first_fit (content : List Nat) (c : Nat)
    (hne : content ≠ []) (hc : c ≤ content.length) :
    (locate c (Split content)).1 < (Split content).length ∧
    c = sumBefore (Split content) (locate c (Split content)).1 +
      (locate c (Split content)).2 ∧
    (locate c (Split content)).2 ≤
      ((Split content).getD (locate c (Split content)).1 []).length ∧
    (∀ j off, j < (Split content).length →
      c = sumBefore (Split content) j + off →
      off ≤ ((Split content).getD j []).length →
      (locate c (Split content)).1 ≤ j) ∧
    (∀ j, j < (Split content).length →
      c = sumBefore (Split content) j + ((Split content).getD j []).length →
      locate c (Split content) = (j, ((Split content).getD j []).length)) := by
  have hj : (joinWithNL (Split content)).length = content.length := by
    rw [split_join content hne]
  exact locate_characterization (Split content) c (Split_ne_nil content hne)
    (by rw [hj]; exact hc)

/-- Witness for C10 on `a\nb` with cursor 1: the remainder equals line 0's
length, so the cursor is placed at the end of line 0, not at the start of
line 1. -/
theorem cursor_locator_first_fit_witness :
    locate 1 (Split [97, 10, 98]) = (0, 1) := by
  have h := cursor_locator_first_fit [97, 10, 98] 1 (by decide) (by decide)
  have h5 := h.2.2.2.2 0 (by decide) (by decide)
  rw [h5]
  decide
